import Mathlib

/-!
Verification of `codeintel-typosquatting-risk-analyzer` (`src/main.py`)
against its natural-language specification.

The program is shallowly embedded: Python strings become `List Char`,
Python `float` becomes `ℚ` (the one arithmetic operation performed on
scores is a single exact division, so rational arithmetic is faithful on
every comparison appearing in the program), the single file read becomes
an `Option (List (List Char))` parameter (`some lines` for a successful
read, `none` for `FileNotFoundError` or any other read error), and
stdout becomes a list of abstract output lines.

`calculate_similarity` delegates to `difflib.SequenceMatcher(None, a, b)
.ratio()`; that library routine (with `isjunk = None`, `autojunk =
True`) is embedded here in full: `b2j` index chains with the autojunk
purge of popular elements, the `find_longest_match` dynamic-programming
loop, the two non-junk extension loops (the two junk extension loops of
the library never fire because `isjunk` is `None`, so `bjunk` is empty),
and the recursive decomposition of `get_matching_blocks`, whose block
sizes are summed by `ratio`.
-/

namespace Typosquat

/-- Python `str.strip()` whitespace test, restricted to the ASCII
whitespace characters Python strips: space, tab, newline, carriage
return, vertical tab, form feed.  (Python also strips some non-ASCII
Unicode whitespace; package-manifest lines are ASCII.) -/
def pyIsSpace (c : Char) : Bool :=
  c = ' ' || c = '\t' || c = '\n' || c = '\r' || c = '\x0b' || c = '\x0c'

/-- Python `line.strip()`: drop whitespace from both ends. -/
def pyStrip (l : List Char) : List Char :=
  ((l.dropWhile pyIsSpace).reverse.dropWhile pyIsSpace).reverse

/-- Python `s.split("==")[0]`: the text before the first occurrence of
the two-character marker `==` (the whole text when the marker is
absent). -/
def takeBeforeEqEq : List Char → List Char
  | [] => []
  | c :: cs => if c = '=' ∧ cs.head? = some '=' then [] else c :: takeBeforeEqEq cs

/-- The line filter of `analyze_dependencies` (src/main.py line 111):
`line.strip() and not line.startswith("#")`.  Note that
`startswith("#")` is applied to the raw line, before stripping. -/
def keepLine (l : List Char) : Bool :=
  !(pyStrip l).isEmpty && !(l.head? == some '#')

/-- The list comprehension of `analyze_dependencies` (src/main.py line
111): `[line.strip().split("==")[0] for line in f if line.strip() and
not line.startswith("#")]`.  A file's lines are modelled without their
trailing newline character (for `strip` and `startswith("#")` and
`split("==")` the trailing newline is inert). -/
def readDependencies (content : List (List Char)) : List (List Char) :=
  (content.filter keepLine).map (fun l => takeBeforeEqEq (pyStrip l))

/-- The fixed reference list of `get_top_pypi_packages` (src/main.py
lines 75-96), in its source order. -/
def popularPackages : List (List Char) :=
  [ "requests".toList, "numpy".toList, "pandas".toList, "django".toList,
    "flask".toList, "tensorflow".toList, "torch".toList,
    "scikit-learn".toList, "matplotlib".toList, "beautifulsoup4".toList,
    "pytest".toList, "sqlalchemy".toList, "celery".toList,
    "scrapy".toList, "tornado".toList, "aiohttp".toList,
    "gunicorn".toList, "psycopg2".toList, "redis".toList, "boto3".toList ]

/-- Python list slicing `l[:n]` for an `int` bound `n`: the first `n`
elements for `n ≥ 0` (all of them when `n` exceeds the length), and all
but the last `-n` elements for `n < 0` (none when `-n` exceeds the
length). -/
def pySliceTo (l : List (List Char)) (n : ℤ) : List (List Char) :=
  if 0 ≤ n then l.take n.toNat else l.take ((l.length : ℤ) + n).toNat

/-- Embeds `get_top_pypi_packages(top_n)` (src/main.py lines 60-97): the slice
`popular_packages[:top_n]`. -/
def getTopPypiPackages (topN : ℤ) : List (List Char) :=
  pySliceTo popularPackages topN

/-! ## `difflib.SequenceMatcher` (isjunk = None, autojunk = True)

Embedding of the parts of `difflib` reached by
`SequenceMatcher(None, a, b).ratio()` in `calculate_similarity`
(src/main.py lines 48-57). -/

/-- The ascending list of positions of `c` in `b`: one chain of the
`b2j` dictionary built by `SequenceMatcher.__chain_b`. -/
def indicesOf (b : List Char) (c : Char) : List Nat :=
  (List.range b.length).filter (fun j => b.getD j ' ' == c)

/-- The autojunk test of `__chain_b`: with `autojunk = True` and no
`isjunk`, an element is purged from `b2j` when `len(b) >= 200` and it
occurs more than `len(b) // 100 + 1` times in `b`. -/
def isPopular (b : List Char) (c : Char) : Bool :=
  decide (200 ≤ b.length) && decide (b.length / 100 + 1 < b.count c)

/-- Embeds `b2j.get(c, nothing)`: the chain of positions of `c` in `b`, empty
when `c` was purged as popular (`isjunk` is `None`, so no key is purged
as junk). -/
def b2j (b : List Char) (c : Char) : List Nat :=
  if isPopular b c then [] else indicesOf b c

/-- The running `(besti, bestj, bestsize)` triple of
`find_longest_match`. -/
structure MatchState where
  besti : Nat
  bestj : Nat
  bestsize : Nat
deriving Repr, DecidableEq

/-- The inner loop of `find_longest_match` over `b2j.get(a[i], nothing)`
for one row `i`: positions `j < blo` are skipped (`continue`), the first
position `j ≥ bhi` stops the row (`break`, valid because the chain is
ascending), and otherwise `k = j2len.get(j-1, 0) + 1` is recorded in
`newj2len` and the best triple is updated when `k > bestsize`.  The
update `i-k+1`, `j-k+1` is written `i+1-k`, `j+1-k`, identical in ℤ and
valid in ℕ because every chain value satisfies `k ≤ j+1` (and `k ≤ i+1`
on reachable states). -/
def rowStep (blo bhi i : Nat) (j2len : Nat → Nat) :
    List Nat → (Nat → Nat) → MatchState → ((Nat → Nat) × MatchState)
  | [], newj2len, st => (newj2len, st)
  | j :: js, newj2len, st =>
    if j < blo then rowStep blo bhi i j2len js newj2len st
    else if bhi ≤ j then (newj2len, st)
    else
      let k := (if j = 0 then 0 else j2len (j - 1)) + 1
      let newj2len2 : Nat → Nat := fun x => if x = j then k else newj2len x
      let st2 := if st.bestsize < k then MatchState.mk (i + 1 - k) (j + 1 - k) k else st
      rowStep blo bhi i j2len js newj2len2 st2

/-- The outer loop of `find_longest_match` over `i in range(alo, ahi)`:
each row rebinds `j2len` to the freshly built `newj2len`. -/
def lmLoop (a b : List Char) (blo bhi : Nat) :
    List Nat → (Nat → Nat) → MatchState → ((Nat → Nat) × MatchState)
  | [], j2len, st => (j2len, st)
  | i :: is, j2len, st =>
    let p := rowStep blo bhi i j2len (b2j b (a.getD i ' ')) (fun _ => 0) st
    lmLoop a b blo bhi is p.1 p.2

/-- The first extension loop of `find_longest_match`: grow the best
block backwards while the preceding elements match (`isbjunk` is the
membership test of the empty `bjunk` set, hence never blocks). -/
def extendBack (a b : List Char) (alo blo : Nat) (st : MatchState) : MatchState :=
  if h : alo < st.besti ∧ blo < st.bestj ∧
      a.getD (st.besti - 1) ' ' = b.getD (st.bestj - 1) ' ' then
    extendBack a b alo blo (MatchState.mk (st.besti - 1) (st.bestj - 1) (st.bestsize + 1))
  else st
termination_by st.besti
decreasing_by
  omega

/-- The second extension loop of `find_longest_match`: grow the best
block forwards while the following elements match.  The two junk
extension loops that follow in the library never fire (`bjunk` is empty
because `isjunk` is `None`), so they are omitted. -/
def extendFwd (a b : List Char) (ahi bhi : Nat) (st : MatchState) : MatchState :=
  if h : st.besti + st.bestsize < ahi ∧ st.bestj + st.bestsize < bhi ∧
      a.getD (st.besti + st.bestsize) ' ' = b.getD (st.bestj + st.bestsize) ' ' then
    extendFwd a b ahi bhi (MatchState.mk st.besti st.bestj (st.bestsize + 1))
  else st
termination_by ahi - (st.besti + st.bestsize)
decreasing_by
  omega

/-- Embeds `find_longest_match(alo, ahi, blo, bhi)`. -/
def findLongestMatch (a b : List Char) (alo ahi blo bhi : Nat) : MatchState :=
  let p := lmLoop a b blo bhi (List.range' alo (ahi - alo)) (fun _ => 0)
    (MatchState.mk alo blo 0)
  extendFwd a b ahi bhi (extendBack a b alo blo p.2)

/-- The documented footprint of `find_longest_match`: either no block
was found (and the triple is `(alo, blo, 0)`), or the block lies inside
`a[alo:ahi]` and `b[blo:bhi]`. -/
def StBounds (alo ahi blo bhi : Nat) (st : MatchState) : Prop :=
  (st.besti = alo ∧ st.bestj = blo ∧ st.bestsize = 0) ∨
  (1 ≤ st.bestsize ∧ alo ≤ st.besti ∧ st.besti + st.bestsize ≤ ahi ∧
    blo ≤ st.bestj ∧ st.bestj + st.bestsize ≤ bhi)

lemma rowStep_bounds (alo ahi blo bhi i m : Nat) (j2len : Nat → Nat)
    (hi : alo ≤ i) (hia : i < ahi) (hm : m ≤ i - alo)
    (h1 : ∀ x, j2len x ≤ m)
    (h2 : ∀ x, 1 ≤ j2len x → blo ≤ x ∧ j2len x ≤ x + 1 - blo) :
    ∀ (js : List Nat) (nj : Nat → Nat) (st : MatchState),
      (∀ x, nj x ≤ m + 1) →
      (∀ x, 1 ≤ nj x → blo ≤ x ∧ nj x ≤ x + 1 - blo) →
      StBounds alo ahi blo bhi st →
      (∀ x, (rowStep blo bhi i j2len js nj st).1 x ≤ m + 1) ∧
      (∀ x, 1 ≤ (rowStep blo bhi i j2len js nj st).1 x →
        blo ≤ x ∧ (rowStep blo bhi i j2len js nj st).1 x ≤ x + 1 - blo) ∧
      StBounds alo ahi blo bhi (rowStep blo bhi i j2len js nj st).2 := by
  intro js
  induction js with
  | nil => intro nj st hn1 hn2 hst; exact ⟨hn1, hn2, hst⟩
  | cons j js ih =>
    intro nj st hn1 hn2 hst
    by_cases hjb : j < blo
    · simp only [rowStep, if_pos hjb]
      exact ih nj st hn1 hn2 hst
    · by_cases hjh : bhi ≤ j
      · simp only [rowStep, if_neg hjb, if_pos hjh]
        exact ⟨hn1, hn2, hst⟩
      · simp only [rowStep, if_neg hjb, if_neg hjh]
        set k := (if j = 0 then 0 else j2len (j - 1)) + 1 with hk
        have hk1 : k ≤ m + 1 := by
          rw [hk]
          split
          · omega
          · have := h1 (j - 1); omega
        have hkj : k ≤ j + 1 - blo := by
          rw [hk]
          split
          · omega
          · rcases Nat.eq_zero_or_pos (j2len (j - 1)) with hz | hp
            · omega
            · have := h2 (j - 1) hp; omega
        apply ih
        · intro x
          dsimp only
          split
          · exact hk1
          · exact hn1 x
        · intro x hx
          dsimp only at hx ⊢
          rcases eq_or_ne x j with rfl | hne
          · rw [if_pos rfl] at hx ⊢
            omega
          · rw [if_neg hne] at hx ⊢
            exact hn2 x hx
        · dsimp only
          split
          · right
            dsimp only
            omega
          · exact hst

lemma lmLoop_bounds (a b : List Char) (alo ahi blo bhi : Nat) :
    ∀ (n start : Nat) (j2len : Nat → Nat) (st : MatchState),
      alo ≤ start → start + n ≤ ahi →
      (∀ x, j2len x ≤ start - alo) →
      (∀ x, 1 ≤ j2len x → blo ≤ x ∧ j2len x ≤ x + 1 - blo) →
      StBounds alo ahi blo bhi st →
      StBounds alo ahi blo bhi
        (lmLoop a b blo bhi (List.range' start n) j2len st).2 := by
  intro n
  induction n with
  | zero => intro start j2len st _ _ _ _ hst; simpa only [List.range', lmLoop] using hst
  | succ n ih =>
    intro start j2len st hs hsn h1 h2 hst
    rw [List.range'_succ]
    simp only [lmLoop]
    obtain ⟨g1, g2, g3⟩ := rowStep_bounds alo ahi blo bhi start (start - alo) j2len hs
      (by omega) (le_refl _) h1 h2 (b2j b (a.getD start ' ')) (fun _ => 0) st
      (fun x => Nat.zero_le _) (fun x hx => (Nat.not_succ_le_zero 0 hx).elim) hst
    exact ih (start + 1) _ _ (by omega) (by omega)
      (fun x => by have := g1 x; omega) g2 g3

lemma extendBack_bounds (a b : List Char) (alo ahi blo bhi : Nat) :
    ∀ st : MatchState, StBounds alo ahi blo bhi st →
      StBounds alo ahi blo bhi (extendBack a b alo blo st) := by
  have key : ∀ (fuel : Nat) (st : MatchState), st.besti ≤ fuel →
      StBounds alo ahi blo bhi st →
      StBounds alo ahi blo bhi (extendBack a b alo blo st) := by
    intro fuel
    induction fuel with
    | zero =>
      intro st hle hst
      unfold extendBack
      split
      · next h => omega
      · exact hst
    | succ fuel ih =>
      intro st hle hst
      unfold extendBack
      split
      · next h =>
        apply ih
        · dsimp only; omega
        · rcases hst with ⟨e1, e2, e3⟩ | ⟨g1, g2, g3, g4, g5⟩
          · omega
          · right; dsimp only; omega
      · exact hst
  intro st
  exact key st.besti st (le_refl _)

lemma extendFwd_bounds (a b : List Char) (alo ahi blo bhi : Nat) :
    ∀ st : MatchState, StBounds alo ahi blo bhi st →
      StBounds alo ahi blo bhi (extendFwd a b ahi bhi st) := by
  have key : ∀ (fuel : Nat) (st : MatchState), ahi - (st.besti + st.bestsize) ≤ fuel →
      StBounds alo ahi blo bhi st →
      StBounds alo ahi blo bhi (extendFwd a b ahi bhi st) := by
    intro fuel
    induction fuel with
    | zero =>
      intro st hle hst
      unfold extendFwd
      split
      · next h => omega
      · exact hst
    | succ fuel ih =>
      intro st hle hst
      unfold extendFwd
      split
      · next h =>
        apply ih
        · dsimp only; omega
        · rcases hst with ⟨e1, e2, e3⟩ | ⟨g1, g2, g3, g4, g5⟩
          · right; dsimp only; omega
          · right; dsimp only; omega
      · exact hst
  intro st
  exact key (ahi - (st.besti + st.bestsize)) st (le_refl _)

/-- Shows that `find_longest_match` returns a triple inside the requested window,
as its docstring states. -/
theorem findLongestMatch_bounds (a b : List Char) (alo ahi blo bhi : Nat) :
    StBounds alo ahi blo bhi (findLongestMatch a b alo ahi blo bhi) := by
  unfold findLongestMatch
  apply extendFwd_bounds
  apply extendBack_bounds
  rcases le_or_lt ahi alo with h | h
  · have hz : ahi - alo = 0 := by omega
    rw [hz]
    simp only [List.range', lmLoop]
    exact Or.inl ⟨rfl, rfl, rfl⟩
  · exact lmLoop_bounds a b alo ahi blo bhi (ahi - alo) alo _ _ (le_refl _) (by omega)
      (fun x => Nat.zero_le _) (fun x hx => (Nat.not_succ_le_zero 0 hx).elim)
      (Or.inl ⟨rfl, rfl, rfl⟩)

/-- The recursive decomposition of `get_matching_blocks`: the size of
the longest match plus the sums from the two flanking windows, guarded
exactly as in the library (`if k`, `if alo < i and blo < j`,
`if i+k < ahi and j+k < bhi`).  The queue order of the library is
irrelevant to the sum, and the final sort-and-collapse pass of
`get_matching_blocks` preserves the sum of the block sizes, so this is
the value of `sum(triple[-1] for triple in self.get_matching_blocks())`
computed by `ratio`. -/
def matchSum (a b : List Char) (alo ahi blo bhi : Nat) : Nat :=
  match hst : findLongestMatch a b alo ahi blo bhi with
  | MatchState.mk bi bj bs =>
    if h1 : bs = 0 then 0
    else
      bs
      + (if h2 : alo < bi ∧ blo < bj then
          matchSum a b alo bi blo bj else 0)
      + (if h3 : bi + bs < ahi ∧ bj + bs < bhi then
          matchSum a b (bi + bs) ahi (bj + bs) bhi else 0)
termination_by ahi - alo
decreasing_by
  · have hb := findLongestMatch_bounds a b alo ahi blo bhi
    rw [hst] at hb
    rcases hb with ⟨e1, e2, e3⟩ | ⟨g1, g2, g3, g4, g5⟩ <;> dsimp only at * <;> omega
  · have hb := findLongestMatch_bounds a b alo ahi blo bhi
    rw [hst] at hb
    rcases hb with ⟨e1, e2, e3⟩ | ⟨g1, g2, g3, g4, g5⟩ <;> dsimp only at * <;> omega

/-- Fuel-indexed mirror of `extendBack`, structurally recursive so that
it evaluates inside the kernel; `extendBackF_eq` proves it coincides
with `extendBack` whenever the fuel is at least `st.besti`. -/
def extendBackF (a b : List Char) (alo blo : Nat) : Nat → MatchState → MatchState
  | 0, st => st
  | f + 1, st =>
    if alo < st.besti ∧ blo < st.bestj ∧
        a.getD (st.besti - 1) ' ' = b.getD (st.bestj - 1) ' ' then
      extendBackF a b alo blo f
        (MatchState.mk (st.besti - 1) (st.bestj - 1) (st.bestsize + 1))
    else st

/-- Fuel-indexed mirror of `extendFwd`. -/
def extendFwdF (a b : List Char) (ahi bhi : Nat) : Nat → MatchState → MatchState
  | 0, st => st
  | f + 1, st =>
    if st.besti + st.bestsize < ahi ∧ st.bestj + st.bestsize < bhi ∧
        a.getD (st.besti + st.bestsize) ' ' = b.getD (st.bestj + st.bestsize) ' ' then
      extendFwdF a b ahi bhi f (MatchState.mk st.besti st.bestj (st.bestsize + 1))
    else st

lemma extendBackF_eq (a b : List Char) (alo blo : Nat) :
    ∀ (f : Nat) (st : MatchState), st.besti ≤ f →
      extendBackF a b alo blo f st = extendBack a b alo blo st := by
  intro f
  induction f with
  | zero =>
    intro st h
    rw [extendBackF, extendBack, dif_neg (fun hc => absurd hc.1 (by omega))]
  | succ f ih =>
    intro st h
    rw [extendBackF, extendBack]
    by_cases hc : alo < st.besti ∧ blo < st.bestj ∧
        a.getD (st.besti - 1) ' ' = b.getD (st.bestj - 1) ' '
    · rw [if_pos hc, dif_pos hc]
      exact ih (MatchState.mk (st.besti - 1) (st.bestj - 1) (st.bestsize + 1)) (by
        dsimp only
        omega)
    · rw [if_neg hc, dif_neg hc]

lemma extendFwdF_eq (a b : List Char) (ahi bhi : Nat) :
    ∀ (f : Nat) (st : MatchState), ahi - (st.besti + st.bestsize) ≤ f →
      extendFwdF a b ahi bhi f st = extendFwd a b ahi bhi st := by
  intro f
  induction f with
  | zero =>
    intro st h
    rw [extendFwdF, extendFwd, dif_neg (fun hc => absurd hc.1 (by omega))]
  | succ f ih =>
    intro st h
    rw [extendFwdF, extendFwd]
    by_cases hc : st.besti + st.bestsize < ahi ∧ st.bestj + st.bestsize < bhi ∧
        a.getD (st.besti + st.bestsize) ' ' = b.getD (st.bestj + st.bestsize) ' '
    · rw [if_pos hc, dif_pos hc]
      exact ih (MatchState.mk st.besti st.bestj (st.bestsize + 1)) (by
        dsimp only
        omega)
    · rw [if_neg hc, dif_neg hc]

/-- Kernel-evaluating mirror of `find_longest_match`: identical loop,
extension loops run on ample fuel. -/
def findLongestMatchF (a b : List Char) (alo ahi blo bhi : Nat) : MatchState :=
  let p := lmLoop a b blo bhi (List.range' alo (ahi - alo)) (fun _ => 0)
    (MatchState.mk alo blo 0)
  extendFwdF a b ahi bhi ahi (extendBackF a b alo blo p.2.besti p.2)

lemma findLongestMatchF_eq (a b : List Char) (alo ahi blo bhi : Nat) :
    findLongestMatchF a b alo ahi blo bhi = findLongestMatch a b alo ahi blo bhi := by
  unfold findLongestMatchF findLongestMatch
  dsimp only
  rw [extendBackF_eq a b alo blo _ _ (le_refl _)]
  rw [extendFwdF_eq a b ahi bhi ahi _ (by omega)]

/-- Fuel-indexed mirror of `matchSum`, structurally recursive so that it
evaluates inside the kernel; `matchSumFuel_eq` proves it coincides with
`matchSum` whenever the fuel is at least `ahi - alo`. -/
def matchSumFuel (a b : List Char) : Nat → Nat → Nat → Nat → Nat → Nat
  | 0, _, _, _, _ => 0
  | fuel + 1, alo, ahi, blo, bhi =>
    match findLongestMatchF a b alo ahi blo bhi with
    | MatchState.mk bi bj bs =>
      if bs = 0 then 0
      else
        bs
        + (if alo < bi ∧ blo < bj then matchSumFuel a b fuel alo bi blo bj else 0)
        + (if bi + bs < ahi ∧ bj + bs < bhi then
            matchSumFuel a b fuel (bi + bs) ahi (bj + bs) bhi else 0)

lemma flm_empty (a b : List Char) (alo ahi blo bhi : Nat) (h : ahi ≤ alo) :
    findLongestMatch a b alo ahi blo bhi = MatchState.mk alo blo 0 := by
  unfold findLongestMatch
  have hz : ahi - alo = 0 := by omega
  rw [hz]
  simp only [List.range', lmLoop]
  rw [extendBack, dif_neg (fun hcon => lt_irrefl alo hcon.1)]
  rw [extendFwd, dif_neg (fun hcon => absurd hcon.1 (show ¬(alo + 0 < ahi) by omega))]

lemma matchSum_eq (a b : List Char) (alo ahi blo bhi : Nat) :
    matchSum a b alo ahi blo bhi =
      (fun st : MatchState =>
        if st.bestsize = 0 then 0
        else
          st.bestsize
          + (if alo < st.besti ∧ blo < st.bestj then
              matchSum a b alo st.besti blo st.bestj else 0)
          + (if st.besti + st.bestsize < ahi ∧ st.bestj + st.bestsize < bhi then
              matchSum a b (st.besti + st.bestsize) ahi (st.bestj + st.bestsize) bhi
            else 0))
        (findLongestMatch a b alo ahi blo bhi) := by
  rw [matchSum]
  cases hfl : findLongestMatch a b alo ahi blo bhi with
  | mk bi bj bs => simp only [hfl, dite_eq_ite]

lemma matchSumFuel_eq (a b : List Char) :
    ∀ (fuel alo ahi blo bhi : Nat), ahi - alo ≤ fuel →
      matchSumFuel a b fuel alo ahi blo bhi = matchSum a b alo ahi blo bhi := by
  intro fuel
  induction fuel with
  | zero =>
    intro alo ahi blo bhi hf
    rw [matchSum_eq, flm_empty a b alo ahi blo bhi (by omega)]
    rfl
  | succ fuel ih =>
    intro alo ahi blo bhi hf
    rw [matchSum_eq]
    have hb := findLongestMatch_bounds a b alo ahi blo bhi
    cases hfl : findLongestMatch a b alo ahi blo bhi with
    | mk bi bj bs =>
      rw [hfl] at hb
      simp only [matchSumFuel, findLongestMatchF_eq, hfl]
      rcases hb with ⟨e1, e2, e3⟩ | ⟨g1, g2, g3, g4, g5⟩
      · have hz : bs = 0 := e3
        subst hz
        simp
      · have g1n : 1 ≤ bs := g1
        have g2n : alo ≤ bi := g2
        have g3n : bi + bs ≤ ahi := g3
        have g4n : blo ≤ bj := g4
        have g5n : bj + bs ≤ bhi := g5
        have hbs : ¬(bs = 0) := by omega
        simp only [if_neg hbs]
        have hifL : (if alo < bi ∧ blo < bj then matchSumFuel a b fuel alo bi blo bj else 0)
            = (if alo < bi ∧ blo < bj then matchSum a b alo bi blo bj else 0) := by
          split
          · exact ih alo bi blo bj (by omega)
          · rfl
        have hifR : (if bi + bs < ahi ∧ bj + bs < bhi then
              matchSumFuel a b fuel (bi + bs) ahi (bj + bs) bhi else 0)
            = (if bi + bs < ahi ∧ bj + bs < bhi then
              matchSum a b (bi + bs) ahi (bj + bs) bhi else 0) := by
          split
          · exact ih (bi + bs) ahi (bj + bs) bhi (by omega)
          · rfl
        rw [hifL, hifR]

/-- The total matched size is at most each window's width: the blocks
found inside `a[alo:ahi]`/`b[blo:bhi]` are disjoint in each sequence. -/
lemma matchSum_le (a b : List Char) :
    ∀ (d alo ahi blo bhi : Nat), ahi - alo ≤ d →
      matchSum a b alo ahi blo bhi ≤ ahi - alo ∧
      matchSum a b alo ahi blo bhi ≤ bhi - blo := by
  intro d
  induction d with
  | zero =>
    intro alo ahi blo bhi hd
    rw [matchSum_eq, flm_empty a b alo ahi blo bhi (by omega)]
    exact ⟨Nat.zero_le _, Nat.zero_le _⟩
  | succ d ih =>
    intro alo ahi blo bhi hd
    rw [matchSum_eq]
    have hb := findLongestMatch_bounds a b alo ahi blo bhi
    cases hfl : findLongestMatch a b alo ahi blo bhi with
    | mk bi bj bs =>
      rw [hfl] at hb
      rcases hb with ⟨e1, e2, e3⟩ | ⟨g1, g2, g3, g4, g5⟩
      · have hz : bs = 0 := e3
        subst hz
        simp
      · have g1n : 1 ≤ bs := g1
        have g2n : alo ≤ bi := g2
        have g3n : bi + bs ≤ ahi := g3
        have g4n : blo ≤ bj := g4
        have g5n : bj + bs ≤ bhi := g5
        have hbs : ¬(bs = 0) := by omega
        simp only [if_neg hbs]
        have hL : (if alo < bi ∧ blo < bj then matchSum a b alo bi blo bj else 0) ≤ bi - alo ∧
            (if alo < bi ∧ blo < bj then matchSum a b alo bi blo bj else 0) ≤ bj - blo := by
          split
          · exact ih alo bi blo bj (by omega)
          · exact ⟨Nat.zero_le _, Nat.zero_le _⟩
        have hR : (if bi + bs < ahi ∧ bj + bs < bhi then
              matchSum a b (bi + bs) ahi (bj + bs) bhi else 0) ≤ ahi - (bi + bs) ∧
            (if bi + bs < ahi ∧ bj + bs < bhi then
              matchSum a b (bi + bs) ahi (bj + bs) bhi else 0) ≤ bhi - (bj + bs) := by
          split
          · exact ih (bi + bs) ahi (bj + bs) bhi (by omega)
          · exact ⟨Nat.zero_le _, Nat.zero_le _⟩
        omega

/-- Embeds `SequenceMatcher.ratio()` together with `_calculate_ratio`:
`2.0 * matches / (len(a) + len(b))`, and `1.0` when both are empty. -/
def ratioQ (a b : List Char) : ℚ :=
  if a.length + b.length = 0 then 1
  else 2 * (matchSum a b 0 a.length 0 b.length : ℚ) / (a.length + b.length)

/-- Embeds `calculate_similarity(a, b)` (src/main.py lines 48-57):
`SequenceMatcher(None, a, b).ratio()`. -/
def calculateSimilarity (a b : List Char) : ℚ := ratioQ a b

/-! ## Orchestrator and CLI surface -/

/-- Python `str.lower()`, restricted to ASCII case mapping (package
names are ASCII; Lean's `Char.toLower` is the ASCII mapping). -/
def pyLower (l : List Char) : List Char := l.map Char.toLower

/-- One element of the `typosquatting_risks` result list:
`(dependency, popular_package, similarity)` (src/main.py line 125). -/
abbrev Finding := (List Char) × (List Char) × ℚ

/-- Embeds `analyze_dependencies(requirements_file, threshold, top_packages)`
(src/main.py lines 99-127).  The file read is modelled by the
`readResult` parameter: `some lines` when `open`/iteration succeeds,
`none` when it raises (`FileNotFoundError` or any other exception), in
which case the function logs and returns `[]`. -/
def analyzeDependencies (readResult : Option (List (List Char)))
    (threshold : ℚ) (topPackages : ℤ) : List Finding :=
  match readResult with
  | none => []
  | some content =>
    let dependencies := readDependencies content
    let popular := getTopPypiPackages topPackages
    dependencies.foldl (fun acc dep =>
      popular.foldl (fun acc2 p =>
        let s := calculateSimilarity (pyLower dep) (pyLower p)
        if threshold ≤ s then acc2 ++ [(dep, p, s)] else acc2) acc) []

/-- One stdout line of `main` (src/main.py lines 152-157), abstractly:
`header` is the text `Potential typosquatting risks found:`, `finding`
is one `  Dependency: ..., Similar to: ..., Similarity: ...` line, and
`noRisks` is the text `No potential typosquatting risks found.`. -/
inductive OutLine where
  | header : OutLine
  | finding (dep target : List Char) (score : ℚ) : OutLine
  | noRisks : OutLine
deriving Repr, DecidableEq

/-- Observable outcome of one run of `main` (src/main.py lines
129-157): the process exit code, the stdout result lines, whether a
read error was logged by `analyze_dependencies`, and whether the
analysis (dependency reading and the comparison loops) was reached at
all. -/
structure RunResult where
  exitCode : Nat
  stdout : List OutLine
  errorLogged : Bool
  analysisPerformed : Bool
deriving Repr, DecidableEq

/-- Embeds `main()` (src/main.py lines 129-157) after argument parsing, as a
function of the parsed configuration and of the outcome of the single
file read: validate `0 <= threshold <= 1` then `top_packages > 0`,
exiting with code 1 before any analysis on violation; otherwise run
`analyze_dependencies` and print either the findings block or the
no-risks line, finishing with exit code 0. -/
def mainRun (readResult : Option (List (List Char)))
    (threshold : ℚ) (topPackages : ℤ) : RunResult :=
  if ¬(0 ≤ threshold ∧ threshold ≤ 1) then
    RunResult.mk 1 [] false false
  else if topPackages ≤ 0 then
    RunResult.mk 1 [] false false
  else
    let risks := analyzeDependencies readResult threshold topPackages
    RunResult.mk 0
      (if risks.isEmpty then [OutLine.noRisks]
       else OutLine.header :: risks.map (fun r => OutLine.finding r.1 r.2.1 r.2.2))
      readResult.isNone true

/-- Specification-side findings list, written from the spec's words
(§4.4): for every dependency in manifest order, for every reference
package in popularity order, one `Finding` exactly when
`similarity(lower(dependency), lower(reference)) >= threshold`, with no
deduplication. -/
def findingsSpec (deps popular : List (List Char)) (threshold : ℚ) : List Finding :=
  deps.flatMap fun dep =>
    (popular.filter fun p =>
      decide (threshold ≤ calculateSimilarity (pyLower dep) (pyLower p))).map
      fun p => (dep, p, calculateSimilarity (pyLower dep) (pyLower p))

/-! ## General-purpose lemmas -/

lemma ratioQ_fuel (a b : List Char) :
    ratioQ a b =
      if a.length + b.length = 0 then (1 : ℚ)
      else 2 * (matchSumFuel a b a.length 0 a.length 0 b.length : ℚ) /
        (a.length + b.length) := by
  rw [ratioQ, matchSumFuel_eq a b a.length 0 a.length 0 b.length (by omega)]

lemma takeBeforeEqEq_isPrefixOf (s : List Char) : takeBeforeEqEq s <+: s := by
  induction s with
  | nil => exact List.prefix_rfl
  | cons c cs ih =>
    rw [takeBeforeEqEq]
    split
    · exact List.nil_prefix
    · obtain ⟨t, ht⟩ := ih
      exact ⟨t, by rw [List.cons_append, ht]⟩

lemma dropWhile_head_false (p : Char → Bool) (l : List Char) :
    ∀ c, (l.dropWhile p).head? = some c → p c = false := by
  induction l with
  | nil => intro c hc; simp at hc
  | cons x xs ih =>
    intro c hc
    rw [List.dropWhile_cons] at hc
    split at hc
    · exact ih c hc
    · next hpx =>
      simp only [List.head?_cons, Option.some.injEq] at hc
      subst hc
      simpa using hpx

lemma pyStrip_isPrefixOf_dropWhile (l : List Char) :
    pyStrip l <+: l.dropWhile pyIsSpace := by
  unfold pyStrip
  have h := List.dropWhile_suffix (l := (l.dropWhile pyIsSpace).reverse) pyIsSpace
  have h2 := List.reverse_prefix.mpr h
  simpa using h2

lemma pyStrip_infix_self (l : List Char) : pyStrip l <:+: l :=
  (pyStrip_isPrefixOf_dropWhile l).isInfix.trans
    (List.dropWhile_suffix pyIsSpace).isInfix

lemma pyStrip_head_not_space (l : List Char) :
    ∀ c, (pyStrip l).head? = some c → pyIsSpace c = false := by
  intro c hc
  obtain ⟨t, ht⟩ := pyStrip_isPrefixOf_dropWhile l
  apply dropWhile_head_false pyIsSpace l c
  rw [← ht]
  cases hs : pyStrip l with
  | nil => rw [hs] at hc; simp at hc
  | cons d ds =>
    rw [hs] at hc
    simp only [List.head?_cons, Option.some.injEq] at hc
    subst hc
    simp

lemma keepLine_false_of_skip (l : List Char)
    (h : pyStrip l = [] ∨ l.head? = some '#') : keepLine l = false := by
  unfold keepLine
  rcases h with h | h
  · simp [h]
  · simp [h]

/-! ## Self-similarity apparatus

For `ratio()` on two identical sequences the loop of
`find_longest_match` always ends with a best block on the diagonal
(`besti = bestj`), after which the two extension loops grow it to the
whole string.  `rs a i` is the start of the maximal run of non-popular
characters ending just below row `i`: chains of the inner loop die on
popular rows, so every chain value at row `i` is bounded by
`i - rs a i`, and the diagonal chain attains the bound. -/

def rs (a : List Char) : Nat → Nat
  | 0 => 0
  | i + 1 => if isPopular a (a.getD i ' ') then i + 1 else rs a i

lemma rs_le (a : List Char) : ∀ i, rs a i ≤ i := by
  intro i
  induction i with
  | zero => exact le_refl 0
  | succ i ih =>
    rw [rs]
    split
    · exact le_refl _
    · omega

lemma rs_nonpop (a : List Char) :
    ∀ i t, rs a i ≤ t → t < i → isPopular a (a.getD t ' ') = false := by
  intro i
  induction i with
  | zero => intro t h1 h2; omega
  | succ i ih =>
    intro t h1 h2
    rw [rs] at h1
    split at h1
    · omega
    · next hpop =>
      rcases Nat.lt_or_ge t i with ht | ht
      · exact ih t h1 ht
      · have : t = i := by omega
        subst this
        simpa using hpop

lemma rs_succ_nonpop (a : List Char) (i : Nat)
    (h : isPopular a (a.getD i ' ') = false) : rs a (i + 1) = rs a i := by
  rw [rs, h]
  simp

lemma rs_succ_pop (a : List Char) (i : Nat)
    (h : isPopular a (a.getD i ' ') = true) : rs a (i + 1) = i + 1 := by
  rw [rs, h]
  simp

lemma rs_pop (a : List Char) :
    ∀ i, rs a i ≠ 0 → isPopular a (a.getD (rs a i - 1) ' ') = true := by
  intro i
  induction i with
  | zero => intro h; simp [rs] at h
  | succ i ih =>
    intro h
    by_cases hp : isPopular a (a.getD i ' ') = true
    · rw [rs_succ_pop a i hp]
      simpa using hp
    · have hp2 : isPopular a (a.getD i ' ') = false := by
        simpa using hp
      rw [rs_succ_nonpop a i hp2] at h ⊢
      exact ih h

lemma mem_indicesOf (b : List Char) (c : Char) (j : Nat) :
    j ∈ indicesOf b c ↔ j < b.length ∧ b.getD j ' ' = c := by
  unfold indicesOf
  rw [List.mem_filter, List.mem_range]
  simp

lemma mem_b2j (b : List Char) (c : Char) (j : Nat) (hc : isPopular b c = false) :
    j ∈ b2j b c ↔ j < b.length ∧ b.getD j ' ' = c := by
  unfold b2j
  rw [hc]
  simp only [Bool.false_eq_true, if_false]
  exact mem_indicesOf b c j

lemma b2j_decomp (a : List Char) (i : Nat) (hi : i < a.length)
    (hpop : isPopular a (a.getD i ' ') = false) :
    ∃ L1 L2 : List Nat,
      b2j a (a.getD i ' ') = L1 ++ i :: L2 ∧
      (∀ j ∈ L1, j < i ∧ j < a.length ∧ a.getD j ' ' = a.getD i ' ') ∧
      (∀ j ∈ L2, i < j ∧ j < a.length ∧ a.getD j ' ' = a.getD i ' ') := by
  have hsplit : List.range a.length = List.range i ++ List.range' i (a.length - i) := by
    rw [List.range_eq_range', List.range_eq_range']
    conv_lhs => rw [show a.length = a.length - i + i by omega]
    have h0 := (List.range'_append_1 0 i (a.length - i)).symm
    simpa using h0
  have hlen : a.length - i = (a.length - i - 1) + 1 := by omega
  refine ⟨(List.range i).filter (fun j => a.getD j ' ' == a.getD i ' '),
    (List.range' (i + 1) (a.length - i - 1)).filter
      (fun j => a.getD j ' ' == a.getD i ' '), ?_, ?_, ?_⟩
  · unfold b2j indicesOf
    rw [hpop]
    simp only [Bool.false_eq_true, if_false]
    rw [hsplit, List.filter_append, hlen, List.range'_succ, List.filter_cons]
    simp
  · intro j hj
    rw [List.mem_filter, List.mem_range] at hj
    obtain ⟨h1, h2⟩ := hj
    exact ⟨h1, by omega, by simpa using h2⟩
  · intro j hj
    rw [List.mem_filter, List.mem_range'_1] at hj
    obtain ⟨⟨h1, h2⟩, h3⟩ := hj
    exact ⟨by omega, by omega, by simpa using h3⟩

lemma rowStep_append (blo bhi i : Nat) (j2len : Nat → Nat) :
    ∀ (xs ys : List Nat), (∀ j ∈ xs, blo ≤ j ∧ j < bhi) →
      ∀ (nj : Nat → Nat) (st : MatchState),
      rowStep blo bhi i j2len (xs ++ ys) nj st =
        rowStep blo bhi i j2len ys (rowStep blo bhi i j2len xs nj st).1
          (rowStep blo bhi i j2len xs nj st).2 := by
  intro xs
  induction xs with
  | nil => intro ys h nj st; rfl
  | cons j js ih =>
    intro ys h nj st
    obtain ⟨hj1, hj2⟩ := h j (List.mem_cons_self j js)
    have hmem : ∀ x ∈ js, blo ≤ x ∧ x < bhi := fun x hx => h x (List.mem_cons_of_mem j hx)
    by_cases hlt : j < blo
    · omega
    · simp only [List.cons_append, rowStep, if_neg hlt, if_neg (by omega : ¬ bhi ≤ j)]
      exact ih ys hmem _ _

/-- Loop invariant of `find_longest_match` on two identical sequences
after processing the rows `[0, i)`: the best block lies on the diagonal,
its size dominates the length of every interval of non-popular rows seen
so far, and the chain values in `j2len` are bounded by the width of the
current non-popular run, record genuine matches against the rows just
processed, and are attained by the diagonal chain. -/
structure SelfInv (a : List Char) (i : Nat) (j2len : Nat → Nat)
    (st : MatchState) : Prop where
  diag : st.besti = st.bestj
  runs : ∀ r s : Nat, s < i →
    (∀ t, r ≤ t → t ≤ s → isPopular a (a.getD t ' ') = false) →
    s + 1 - r ≤ st.bestsize
  jle : ∀ x, j2len x ≤ i - rs a i
  jsound : ∀ x, 1 ≤ j2len x → x < a.length ∧ j2len x ≤ x + 1 ∧
    ∀ t, t < j2len x → a.getD (x - t) ' ' = a.getD (i - 1 - t) ' ' ∧
      isPopular a (a.getD (i - 1 - t) ' ') = false
  jdiag : 1 ≤ i → isPopular a (a.getD (i - 1) ' ') = false →
    j2len (i - 1) = i - rs a i

/-- Invariant of the partially built `newj2len` during one row `i` of
the self-comparison. -/
def NJinv (a : List Char) (i : Nat) (nj : Nat → Nat) : Prop :=
  (∀ x, nj x ≤ i + 1 - rs a i) ∧
  (∀ x, 1 ≤ nj x → x < a.length ∧ nj x ≤ x + 1 ∧
    ∀ t, t < nj x → a.getD (x - t) ' ' = a.getD (i - t) ' ' ∧
      isPopular a (a.getD (i - t) ' ') = false)

/-- The facts available about one chain value `k = j2len.get(j-1,0) + 1`
at row `i` of the self-comparison: it is bounded by the current
non-popular run width and by `j + 1`, it records a genuine match of the
last `k` rows against positions ending at `j`, and when `j < i` it
cannot beat the current best (the copy it matches is a non-popular run
that ends strictly before row `i`, already dominated by `runs`). -/
lemma chainFacts (a : List Char) (i : Nat) (j2len : Nat → Nat)
    (st : MatchState) (hinv : SelfInv a i j2len st)
    (hc : isPopular a (a.getD i ' ') = false)
    (j : Nat) (hjn : j < a.length) (hjc : a.getD j ' ' = a.getD i ' ')
    (k : Nat) (hk : k = (if j = 0 then 0 else j2len (j - 1)) + 1) :
    k ≤ i + 1 - rs a i ∧ k ≤ j + 1 ∧
    (∀ t, t < k → a.getD (j - t) ' ' = a.getD (i - t) ' ' ∧
      isPopular a (a.getD (i - t) ' ') = false) ∧
    (j < i → k ≤ st.bestsize) := by
  have hrs := rs_le a i
  have hP1 : k ≤ i + 1 - rs a i := by
    rw [hk]
    split
    · omega
    · have := hinv.jle (j - 1)
      omega
  have hP2 : k ≤ j + 1 := by
    rw [hk]
    split
    · omega
    · rcases Nat.eq_zero_or_pos (j2len (j - 1)) with hz | hp
      · omega
      · have := (hinv.jsound (j - 1) hp).2.1
        omega
  have hP3 : ∀ t, t < k → a.getD (j - t) ' ' = a.getD (i - t) ' ' ∧
      isPopular a (a.getD (i - t) ' ') = false := by
    intro t ht
    cases t with
    | zero => exact ⟨hjc, hc⟩
    | succ u =>
      have hj0 : ¬(j = 0) := by
        intro h0
        rw [hk, if_pos h0] at ht
        omega
      rw [hk, if_neg hj0] at ht
      have hu : u < j2len (j - 1) := by omega
      have hpos : 1 ≤ j2len (j - 1) := by omega
      obtain ⟨hxn, hxb, hs⟩ := hinv.jsound (j - 1) hpos
      obtain ⟨he, hp⟩ := hs u hu
      have e1 : j - 1 - u = j - (u + 1) := by omega
      have e2 : i - 1 - u = i - (u + 1) := by
        have h9 : u < i - rs a i := lt_of_lt_of_le hu (hinv.jle (j - 1))
        omega
      rw [e1] at he
      rw [e2] at he hp
      exact ⟨he, hp⟩
  refine ⟨hP1, hP2, hP3, ?_⟩
  intro hji
  have hkj : j + 1 - (j + 1 - k) = k := by omega
  have := hinv.runs (j + 1 - k) j hji ?_
  · omega
  · intro t ht1 ht2
    have htk : j - t < k := by omega
    obtain ⟨he, hp⟩ := hP3 (j - t) htk
    have e3 : j - (j - t) = t := by omega
    rw [e3] at he
    rw [he]
    exact hp

/-- The diagonal chain value at row `i` is exactly the width of the
current non-popular run. -/
lemma diagChain_val (a : List Char) (i : Nat) (j2len : Nat → Nat)
    (st : MatchState) (hinv : SelfInv a i j2len st) :
    (if i = 0 then 0 else j2len (i - 1)) + 1 = i + 1 - rs a i := by
  have hrs := rs_le a i
  cases i with
  | zero => simp [rs]
  | succ m =>
    rw [if_neg (Nat.succ_ne_zero m)]
    simp only [Nat.add_sub_cancel]
    by_cases hp : isPopular a (a.getD m ' ') = true
    · have h1 : rs a (m + 1) = m + 1 := rs_succ_pop a m hp
      have h2 := hinv.jle m
      rw [h1] at h2 ⊢
      omega
    · have hp2 : isPopular a (a.getD m ' ') = false := by simpa using hp
      have h1 : rs a (m + 1) = rs a m := rs_succ_nonpop a m hp2
      have h2 := hinv.jdiag (by omega) (by simpa using hp2)
      simp only [Nat.add_sub_cancel] at h2
      have hrsm := rs_le a m
      rw [h1] at h2 ⊢ <;> omega

/-- Processing a batch of chain positions at row `i` of the
self-comparison that provably cannot beat the current best: the best
triple is untouched, the `newj2len` invariant is maintained, and entries
outside the batch are untouched. -/
lemma rowPass (a : List Char) (i : Nat) (j2len : Nat → Nat)
    (st : MatchState) (hinv : SelfInv a i j2len st)
    (hc : isPopular a (a.getD i ' ') = false) :
    ∀ (js : List Nat),
      (∀ j ∈ js, j < a.length ∧ a.getD j ' ' = a.getD i ' ') →
      (∀ j ∈ js, j < i ∨ i + 1 - rs a i ≤ st.bestsize) →
      ∀ (nj : Nat → Nat), NJinv a i nj →
        (rowStep 0 a.length i j2len js nj st).2 = st ∧
        NJinv a i (rowStep 0 a.length i j2len js nj st).1 ∧
        (∀ x, x ∉ js → (rowStep 0 a.length i j2len js nj st).1 x = nj x) := by
  intro js
  induction js with
  | nil =>
    intro hmem hord nj hnj
    exact ⟨rfl, hnj, fun x hx => rfl⟩
  | cons j js ih =>
    intro hmem hord nj hnj
    obtain ⟨hjn, hjc⟩ := hmem j (List.mem_cons_self j js)
    obtain ⟨hk1, hk2, hk3, hk4⟩ := chainFacts a i j2len st hinv hc j hjn hjc
      ((if j = 0 then 0 else j2len (j - 1)) + 1) rfl
    have hnt : ¬(st.bestsize < (if j = 0 then 0 else j2len (j - 1)) + 1) := by
      rcases hord j (List.mem_cons_self j js) with hlt | hge
      · have := hk4 hlt
        omega
      · omega
    simp only [rowStep, Nat.not_lt_zero, if_false,
      if_neg (by omega : ¬ a.length ≤ j)]
    rw [if_neg hnt]
    have hstep := ih (fun x hx => hmem x (List.mem_cons_of_mem j hx))
      (fun x hx => hord x (List.mem_cons_of_mem j hx))
      (fun x => if x = j then (if j = 0 then 0 else j2len (j - 1)) + 1 else nj x)
      ?_
    · refine ⟨hstep.1, hstep.2.1, ?_⟩
      intro x hx
      rw [hstep.2.2 x (fun hxs => hx (List.mem_cons_of_mem j hxs))]
      rw [if_neg (fun hxj => hx (by rw [hxj]; exact List.mem_cons_self j js))]
    · constructor
      · intro x
        dsimp only
        by_cases hxj : x = j
        · rw [if_pos hxj]
          exact hk1
        · rw [if_neg hxj]
          exact hnj.1 x
      · intro x hx
        dsimp only at hx ⊢
        by_cases hxj : x = j
        · rw [if_pos hxj] at hx ⊢
          subst hxj
          exact ⟨hjn, hk2, hk3⟩
        · rw [if_neg hxj] at hx ⊢
          exact hnj.2 x hx

/-- A popular row of the self-comparison: the chain dictionary for the
row character is empty, every chain dies, and the invariant carries
over (runs ending at this row are excluded by popularity). -/
lemma selfInv_step_pop (a : List Char) (i : Nat) (j2len : Nat → Nat)
    (st : MatchState) (hinv : SelfInv a i j2len st)
    (hc : isPopular a (a.getD i ' ') = true) :
    SelfInv a (i + 1)
      (rowStep 0 a.length i j2len (b2j a (a.getD i ' ')) (fun _ => 0) st).1
      (rowStep 0 a.length i j2len (b2j a (a.getD i ' ')) (fun _ => 0) st).2 := by
  have hb : b2j a (a.getD i ' ') = [] := by
    unfold b2j
    rw [if_pos hc]
  rw [hb]
  refine ⟨hinv.diag, ?_, ?_, ?_, ?_⟩
  · intro r s hs hnp
    rcases Nat.lt_or_ge s i with hsi | hsi
    · exact hinv.runs r s hsi hnp
    · have hsi2 : s = i := by omega
      subst hsi2
      rcases Nat.lt_or_ge s r with hri | hri
      · omega
      · have h2 := hnp s hri (le_refl s)
        rw [hc] at h2
        simp at h2
  · intro x
    exact Nat.zero_le _
  · intro x hx
    exact (Nat.not_succ_le_zero 0 hx).elim
  · intro h1 h2
    simp only [Nat.add_sub_cancel] at h2
    rw [hc] at h2
    simp at h2

/-- A non-popular row of the self-comparison: positions left of the
diagonal are dominated by `runs` (their copies are earlier non-popular
runs), the diagonal position raises the best block to the width of the
current non-popular run while staying on the diagonal, and positions
right of the diagonal are dominated by the raised best. -/
lemma selfInv_step_nonpop (a : List Char) (i : Nat) (j2len : Nat → Nat)
    (st : MatchState) (hinv : SelfInv a i j2len st) (hin : i < a.length)
    (hc : isPopular a (a.getD i ' ') = false) :
    SelfInv a (i + 1)
      (rowStep 0 a.length i j2len (b2j a (a.getD i ' ')) (fun _ => 0) st).1
      (rowStep 0 a.length i j2len (b2j a (a.getD i ' ')) (fun _ => 0) st).2 := by
  obtain ⟨L1, L2, hL, hL1, hL2⟩ := b2j_decomp a i hin hc
  rw [hL, rowStep_append 0 a.length i j2len L1 (i :: L2)
    (fun j hj => ⟨Nat.zero_le j, (hL1 j hj).2.1⟩) _ _]
  obtain ⟨hp1st, hp1nj, hp1un⟩ := rowPass a i j2len st hinv hc L1
    (fun j hj => ⟨(hL1 j hj).2.1, (hL1 j hj).2.2⟩)
    (fun j hj => Or.inl (hL1 j hj).1)
    (fun _ => 0) ⟨fun x => Nat.zero_le _, fun x hx => (Nat.not_succ_le_zero 0 hx).elim⟩
  rw [hp1st]
  have hkd := diagChain_val a i j2len st hinv
  obtain ⟨hk1, hk2, hk3, hk4⟩ := chainFacts a i j2len st hinv hc i hin rfl
    ((if i = 0 then 0 else j2len (i - 1)) + 1) rfl
  have main : ∀ st2 : MatchState, st2.besti = st2.bestj →
      st.bestsize ≤ st2.bestsize → i + 1 - rs a i ≤ st2.bestsize →
      ∀ nj2 : Nat → Nat, NJinv a i nj2 → nj2 i = i + 1 - rs a i →
      SelfInv a (i + 1) (rowStep 0 a.length i j2len L2 nj2 st2).1
        (rowStep 0 a.length i j2len L2 nj2 st2).2 := by
    intro st2 hd2 hb2 hc2 nj2 hnj2 hdiag2
    have hinv2 : SelfInv a i j2len st2 :=
      ⟨hd2, fun r s hs hnp => le_trans (hinv.runs r s hs hnp) hb2,
        hinv.jle, hinv.jsound, hinv.jdiag⟩
    obtain ⟨hp3st, hp3nj, hp3un⟩ := rowPass a i j2len st2 hinv2 hc L2
      (fun j hj => ⟨(hL2 j hj).2.1, (hL2 j hj).2.2⟩)
      (fun j hj => Or.inr hc2)
      nj2 hnj2
    refine ⟨?_, ?_, ?_, ?_, ?_⟩
    · rw [hp3st]
      exact hd2
    · intro r s hs hnp
      rw [hp3st]
      rcases Nat.lt_or_ge s i with hsi | hsi
      · exact le_trans (hinv.runs r s hsi hnp) hb2
      · have hsi2 : s = i := by omega
        subst hsi2
        rcases Nat.lt_or_ge s r with hri | hri
        · omega
        · rcases Nat.lt_or_ge r (rs a s) with hrr | hrr
          · have hne : rs a s ≠ 0 := by omega
            have hpop := rs_pop a s hne
            have hnp2 := hnp (rs a s - 1) (by omega) (by have := rs_le a s; omega)
            rw [hnp2] at hpop
            simp at hpop
          · omega
    · intro x
      rw [rs_succ_nonpop a i hc]
      exact hp3nj.1 x
    · intro x hx
      obtain ⟨hxn, hxb, hss⟩ := hp3nj.2 x hx
      refine ⟨hxn, hxb, ?_⟩
      intro t ht
      have h5 := hss t ht
      simpa only [Nat.add_sub_cancel] using h5
    · intro h1 h2
      simp only [Nat.add_sub_cancel]
      rw [rs_succ_nonpop a i hc]
      rw [hp3un i (fun hmem => absurd (hL2 i hmem).1 (lt_irrefl i))]
      exact hdiag2
  simp only [rowStep, Nat.not_lt_zero, if_false, if_neg (by omega : ¬ a.length ≤ i)]
  have hnjmk : NJinv a i (fun x =>
      if x = i then (if i = 0 then 0 else j2len (i - 1)) + 1
      else (rowStep 0 a.length i j2len L1 (fun _ => 0) st).1 x) := by
    constructor
    · intro x
      dsimp only
      split
      · exact hk1
      · exact hp1nj.1 x
    · intro x hx
      dsimp only at hx ⊢
      by_cases hxj : x = i
      · rw [if_pos hxj] at hx ⊢
        subst hxj
        exact ⟨hin, hk2, hk3⟩
      · rw [if_neg hxj] at hx ⊢
        exact hp1nj.2 x hx
  have hnjmki : (fun x =>
      if x = i then (if i = 0 then 0 else j2len (i - 1)) + 1
      else (rowStep 0 a.length i j2len L1 (fun _ => 0) st).1 x) i =
      i + 1 - rs a i := by
    dsimp only
    rw [if_pos rfl]
    exact hkd
  by_cases htr : st.bestsize < (if i = 0 then 0 else j2len (i - 1)) + 1
  · rw [if_pos htr]
    exact main _ rfl (by dsimp only; omega) (by dsimp only; omega) _ hnjmk hnjmki
  · rw [if_neg htr]
    exact main st hinv.diag (le_refl _) (by omega) _ hnjmk hnjmki

/-- The whole loop of `find_longest_match` on identical sequences keeps
the invariant. -/
lemma lmLoop_self (a : List Char) :
    ∀ (m i : Nat) (j2len : Nat → Nat) (st : MatchState),
      i + m ≤ a.length →
      SelfInv a i j2len st →
      SelfInv a (i + m)
        (lmLoop a a 0 a.length (List.range' i m) j2len st).1
        (lmLoop a a 0 a.length (List.range' i m) j2len st).2 := by
  intro m
  induction m with
  | zero =>
    intro i j2len st h hinv
    exact hinv
  | succ m ih =>
    intro i j2len st h hinv
    rw [List.range'_succ]
    simp only [lmLoop]
    have hstep : SelfInv a (i + 1)
        (rowStep 0 a.length i j2len (b2j a (a.getD i ' ')) (fun _ => 0) st).1
        (rowStep 0 a.length i j2len (b2j a (a.getD i ' ')) (fun _ => 0) st).2 := by
      by_cases hc : isPopular a (a.getD i ' ') = true
      · exact selfInv_step_pop a i j2len st hinv hc
      · exact selfInv_step_nonpop a i j2len st hinv (by omega) (by simpa using hc)
    have hres := ih (i + 1) _ _ (by omega) hstep
    rw [show i + (m + 1) = (i + 1) + m by omega]
    exact hres

lemma extendBack_diag (a : List Char) : ∀ (d s : Nat),
    extendBack a a 0 0 (MatchState.mk d d s) = MatchState.mk 0 0 (d + s) := by
  intro d
  induction d with
  | zero =>
    intro s
    rw [extendBack, dif_neg (fun hcon => lt_irrefl 0 hcon.1)]
    rw [Nat.zero_add]
  | succ d ih =>
    intro s
    rw [extendBack, dif_pos ⟨Nat.succ_pos d, Nat.succ_pos d, rfl⟩]
    simp only [Nat.add_sub_cancel]
    rw [ih (s + 1), show d + (s + 1) = (d + 1) + s by omega]

lemma extendFwd_diag (a : List Char) (n : Nat) : ∀ (f s : Nat), n - s ≤ f → s ≤ n →
    extendFwd a a n n (MatchState.mk 0 0 s) = MatchState.mk 0 0 n := by
  intro f
  induction f with
  | zero =>
    intro s h1 h2
    have hs : s = n := by omega
    rw [hs, extendFwd, dif_neg (fun hcon => absurd hcon.1 (show ¬(0 + n < n) by omega))]
  | succ f ih =>
    intro s h1 h2
    rcases Nat.lt_or_ge s n with hsn | hsn
    · rw [extendFwd,
        dif_pos ⟨(show 0 + s < n by omega), (show 0 + s < n by omega), rfl⟩]
      exact ih (s + 1) (by omega) (by omega)
    · have hs : s = n := by omega
      rw [hs, extendFwd,
        dif_neg (fun hcon => absurd hcon.1 (show ¬(0 + n < n) by omega))]

/-- On two identical sequences `find_longest_match` returns the whole
diagonal: the loop ends with a diagonal best block and the extension
loops then grow it to the full string. -/
lemma findLongestMatch_self (a : List Char) :
    findLongestMatch a a 0 a.length 0 a.length = MatchState.mk 0 0 a.length := by
  unfold findLongestMatch
  dsimp only
  simp only [Nat.sub_zero]
  have hinit : SelfInv a 0 (fun _ => 0) (MatchState.mk 0 0 0) :=
    ⟨rfl, fun r s hs hnp => absurd hs (Nat.not_lt_zero s),
      fun x => Nat.zero_le _,
      fun x hx => (Nat.not_succ_le_zero 0 hx).elim,
      fun h1 h2 => absurd h1 (by omega)⟩
  have hloop := lmLoop_self a a.length 0 (fun _ => 0) (MatchState.mk 0 0 0)
    (by omega) hinit
  have hbnd := lmLoop_bounds a a 0 a.length 0 a.length a.length 0 (fun _ => 0)
    (MatchState.mk 0 0 0) (le_refl 0) (by omega)
    (fun x => Nat.zero_le _) (fun x hx => (Nat.not_succ_le_zero 0 hx).elim)
    (Or.inl ⟨rfl, rfl, rfl⟩)
  cases hq : (lmLoop a a 0 a.length (List.range' 0 a.length) (fun _ => 0)
      (MatchState.mk 0 0 0)).2 with
  | mk bi bj bs =>
    rw [hq] at hbnd
    have hd : bi = bj := by
      have := hloop.diag
      rw [hq] at this
      exact this
    subst hd
    have hle : bi + bs ≤ a.length := by
      rcases hbnd with ⟨e1, e2, e3⟩ | ⟨g1, g2, g3, g4, g5⟩
      · have e1n : bi = 0 := e1
        have e3n : bs = 0 := e3
        omega
      · exact g3
    rw [extendBack_diag a bi bs]
    exact extendFwd_diag a a.length a.length (bi + bs) (by omega) hle

/-! ## Claims -/

/-- C1: for every manifest whose read succeeds,
`analyze_dependencies` produces exactly one `Finding` for each pair
`(dependency, reference)` with
`similarity(lower(dependency), lower(reference)) >= threshold`
(inclusive), and none below threshold, ordered dependency-major
(manifest order) and reference-minor (popularity order), with no
deduplication: the result coincides with the specification-side
`findingsSpec` over the read dependencies and the requested reference
slice. -/
theorem analyzeDependencies_matches_spec (content : List (List Char))
    (threshold : ℚ) (topPackages : ℤ) :
    analyzeDependencies (some content) threshold topPackages =
      findingsSpec (readDependencies content) (getTopPypiPackages topPackages)
        threshold := by
  have inner : ∀ (dep : List Char) (pops : List (List Char)) (acc : List Finding),
      pops.foldl (fun acc2 p =>
        let s := calculateSimilarity (pyLower dep) (pyLower p)
        if threshold ≤ s then acc2 ++ [(dep, p, s)] else acc2) acc
      = acc ++ (pops.filter fun p =>
          decide (threshold ≤ calculateSimilarity (pyLower dep) (pyLower p))).map
          (fun p => (dep, p, calculateSimilarity (pyLower dep) (pyLower p))) := by
    intro dep pops
    induction pops with
    | nil => intro acc; simp
    | cons p ps ih =>
      intro acc
      simp only [List.foldl_cons, List.filter_cons]
      by_cases hp : threshold ≤ calculateSimilarity (pyLower dep) (pyLower p)
      · rw [if_pos hp, ih]
        simp [hp]
      · rw [if_neg hp, ih]
        simp [hp]
  have outer : ∀ (deps : List (List Char)) (pops : List (List Char))
      (acc : List Finding),
      deps.foldl (fun acc dep =>
        pops.foldl (fun acc2 p =>
          let s := calculateSimilarity (pyLower dep) (pyLower p)
          if threshold ≤ s then acc2 ++ [(dep, p, s)] else acc2) acc) acc
      = acc ++ findingsSpec deps pops threshold := by
    intro deps
    induction deps with
    | nil => intro pops acc; simp [findingsSpec]
    | cons dep deps ih =>
      intro pops acc
      simp only [List.foldl_cons]
      rw [inner dep pops acc, ih]
      simp [findingsSpec]
  unfold analyzeDependencies
  dsimp only
  rw [outer]
  simp

/-- C2, counterexample: a comment line indented by whitespace is not
skipped by the code (`startswith("#")` is tested on the raw line), so
the line `  # foo` contributes the dependency name `# foo`, not zero
names. -/
theorem readDependencies_indented_comment_not_skipped :
    readDependencies ["  # foo".toList] = ["# foo".toList] ∧
      readDependencies ["  # foo".toList] ≠ [] := by
  constructor
  · decide
  · decide

/-- C2, amended: a manifest line contributes zero dependency names when
it is empty after trimming, or when its very first character (with no
leading whitespace allowed) is `#`; an indented comment line is kept and
contributes a (bogus) dependency name. -/
theorem readDependencies_skips_blank_and_hash_first (l : List Char)
    (h : pyStrip l = [] ∨ l.head? = some '#') :
    ∀ pre post : List (List Char),
      readDependencies (pre ++ l :: post) =
        readDependencies pre ++ readDependencies post := by
  intro pre post
  unfold readDependencies
  rw [List.filter_append, List.filter_cons, keepLine_false_of_skip l h]
  simp

theorem readDependencies_skips_blank_and_hash_first_witness :
    readDependencies (["numpy".toList] ++ "# foo".toList :: ["redis".toList]) =
      readDependencies ["numpy".toList] ++ readDependencies ["redis".toList] :=
  readDependencies_skips_blank_and_hash_first "# foo".toList (Or.inr (by decide))
    ["numpy".toList] ["redis".toList]

/-- C3, counterexample: the code strips the whole line and then splits
on `==`, so whitespace between the name and the `==` marker survives:
the line `numpy ==1.21.0` yields the name `numpy ` (trailing space),
contradicting "no returned name has leading or trailing whitespace". -/
theorem readDependencies_keeps_trailing_whitespace :
    readDependencies ["numpy ==1.21.0".toList] = ["numpy ".toList] ∧
      readDependencies ["numpy ==1.21.0".toList] ≠ ["numpy".toList] := by
  constructor
  · decide
  · decide

/-- C3, amended: every kept line yields the text of the trimmed line
left of the first `==`; the name therefore never has leading whitespace
and is a contiguous fragment of the line with case preserved, but it can
retain trailing whitespace when whitespace precedes the `==`; the line
`numpy==1.21.0` yields exactly `numpy`. -/
theorem readDependencies_name_shape (l : List Char) (h : keepLine l = true) :
    readDependencies [l] = [takeBeforeEqEq (pyStrip l)] ∧
      (∀ c, (takeBeforeEqEq (pyStrip l)).head? = some c → pyIsSpace c = false) ∧
      takeBeforeEqEq (pyStrip l) <:+: l ∧
      readDependencies ["numpy==1.21.0".toList] = ["numpy".toList] := by
  refine ⟨?_, ?_, ?_, by decide⟩
  · unfold readDependencies
    simp [List.filter_cons, h]
  · intro c hc
    obtain ⟨t, ht⟩ := takeBeforeEqEq_isPrefixOf (pyStrip l)
    apply pyStrip_head_not_space l c
    rw [← ht]
    cases hs : takeBeforeEqEq (pyStrip l) with
    | nil => rw [hs] at hc; simp at hc
    | cons d ds =>
      rw [hs] at hc
      simp only [List.head?_cons, Option.some.injEq] at hc
      subst hc
      simp
  · exact (takeBeforeEqEq_isPrefixOf (pyStrip l)).isInfix.trans (pyStrip_infix_self l)

theorem readDependencies_name_shape_witness :
    readDependencies ["Numpy==1.21.0".toList] =
      [takeBeforeEqEq (pyStrip "Numpy==1.21.0".toList)] ∧
      (∀ c, (takeBeforeEqEq (pyStrip "Numpy==1.21.0".toList)).head? = some c →
        pyIsSpace c = false) ∧
      takeBeforeEqEq (pyStrip "Numpy==1.21.0".toList) <:+: "Numpy==1.21.0".toList ∧
      readDependencies ["numpy==1.21.0".toList] = ["numpy".toList] :=
  readDependencies_name_shape "Numpy==1.21.0".toList (by decide)

/-- C4: the implemented scorer gives every string self-similarity
exactly `1`: on identical sequences the matching loop always ends with a
best block on the diagonal and the extension loops grow it to the whole
string, so the matched total is the full length (this holds also in the
autojunk regime of strings of length at least 200). -/
theorem calculateSimilarity_self (a : List Char) : calculateSimilarity a a = 1 := by
  unfold calculateSimilarity ratioQ
  by_cases hz : a.length + a.length = 0
  · rw [if_pos hz]
  · rw [if_neg hz]
    have hM : matchSum a a 0 a.length 0 a.length = a.length := by
      rw [matchSum_eq, findLongestMatch_self]
      dsimp only
      rw [if_neg (by omega : ¬ a.length = 0)]
      rw [if_neg (fun hcon => lt_irrefl 0 hcon.1)]
      rw [if_neg (fun hcon => absurd hcon.1 (show ¬(0 + a.length < a.length) by omega))]
      omega
    rw [hM]
    have hne : ((a.length : ℚ) + a.length) ≠ 0 := by
      exact_mod_cast (by omega : a.length + a.length ≠ 0)
    rw [div_eq_one_iff_eq hne]
    ring

/-- C5, counterexample: the implemented scorer is not symmetric in its
arguments: `SequenceMatcher(None, "abxb", "bxab").ratio()` is `0.5`
while `SequenceMatcher(None, "bxab", "abxb").ratio()` is `0.75` (the
greedy longest-block choice differs with the argument order). -/
theorem calculateSimilarity_asymmetric_pair :
    calculateSimilarity "abxb".toList "bxab".toList ≠
      calculateSimilarity "bxab".toList "abxb".toList ∧
    calculateSimilarity "abxb".toList "bxab".toList = 1 / 2 ∧
    calculateSimilarity "bxab".toList "abxb".toList = 3 / 4 := by
  have h1 : matchSumFuel ['a', 'b', 'x', 'b'] ['b', 'x', 'a', 'b'] 4 0 4 0 4 = 2 := by
    decide
  have h2 : matchSumFuel ['b', 'x', 'a', 'b'] ['a', 'b', 'x', 'b'] 4 0 4 0 4 = 3 := by
    decide
  have e1 : calculateSimilarity "abxb".toList "bxab".toList = 1 / 2 := by
    rw [calculateSimilarity, ratioQ_fuel]
    simp only [List.length_cons, List.length_nil, String.toList]
    norm_num [h1]
  have e2 : calculateSimilarity "bxab".toList "abxb".toList = 3 / 4 := by
    rw [calculateSimilarity, ratioQ_fuel]
    simp only [List.length_cons, List.length_nil, String.toList]
    norm_num [h2]
  refine ⟨?_, e1, e2⟩
  rw [e1, e2]
  norm_num

/-- C5, amended: the scorer is symmetric in the degenerate cases (equal
arguments, or an empty argument), but not in general: a pair such as
`("abxb", "bxab")` receives different scores in the two argument
orders. -/
theorem calculateSimilarity_symm_degenerate (a b : List Char)
    (h : a = b ∨ a = [] ∨ b = []) :
    calculateSimilarity a b = calculateSimilarity b a := by
  have empty_left : ∀ l : List Char, calculateSimilarity [] l = calculateSimilarity l [] := by
    intro l
    unfold calculateSimilarity ratioQ
    simp only [List.length_nil]
    obtain ⟨hA, hB⟩ := matchSum_le ([] : List Char) l 0 0 0 0 l.length (by omega)
    obtain ⟨hC, hD⟩ := matchSum_le l ([] : List Char) l.length 0 l.length 0 0 (by omega)
    have hA0 : matchSum ([] : List Char) l 0 0 0 l.length = 0 := by omega
    have hC0 : matchSum l ([] : List Char) 0 l.length 0 0 = 0 := by omega
    rw [hA0, hC0]
    simp [Nat.add_comm]
  rcases h with rfl | rfl | rfl
  · rfl
  · exact empty_left b
  · exact (empty_left a).symm

theorem calculateSimilarity_symm_degenerate_witness :
    calculateSimilarity [] "xyz".toList = calculateSimilarity "xyz".toList [] :=
  calculateSimilarity_symm_degenerate [] "xyz".toList (Or.inr (Or.inl rfl))

/-- C6: every similarity score lies in the closed interval `[0, 1]`,
including empty inputs, with `similarity("", "") = 1` and
`similarity("", s) = 0` for nonempty `s`. -/
theorem calculateSimilarity_unit_interval (a b : List Char) :
    0 ≤ calculateSimilarity a b ∧ calculateSimilarity a b ≤ 1 ∧
      calculateSimilarity ([] : List Char) ([] : List Char) = 1 ∧
      (b ≠ [] → calculateSimilarity [] b = 0) := by
  obtain ⟨hA, hB⟩ := matchSum_le a b a.length 0 a.length 0 b.length (by omega)
  refine ⟨?_, ?_, by rfl, ?_⟩
  · unfold calculateSimilarity ratioQ
    split
    · norm_num
    · next hne =>
      apply div_nonneg
      · positivity
      · positivity
  · unfold calculateSimilarity ratioQ
    split
    · norm_num
    · next hne =>
      rw [div_le_one (by exact_mod_cast Nat.pos_of_ne_zero hne)]
      have h2 : 2 * matchSum a b 0 a.length 0 b.length ≤ a.length + b.length := by
        omega
      exact_mod_cast h2
  · intro hb
    unfold calculateSimilarity ratioQ
    have hlb : b.length ≠ 0 := by
      intro h0
      exact hb (List.length_eq_zero.mp h0)
    simp only [List.length_nil]
    rw [if_neg (by omega)]
    obtain ⟨hC, hD⟩ := matchSum_le ([] : List Char) b 0 0 0 0 b.length (by omega)
    have hC0 : matchSum ([] : List Char) b 0 0 0 b.length = 0 := by omega
    rw [hC0]
    norm_num

theorem calculateSimilarity_unit_interval_witness :
    calculateSimilarity [] "abc".toList = 0 :=
  (calculateSimilarity_unit_interval [] "abc".toList).2.2.2 (by decide)

/-- C7: for every integer `n ≥ 0`, `get_top_pypi_packages(n)` returns
exactly the first `n` entries of the fixed 20-entry reference list in
original order, of length `min n 20`: `n = 0` yields the empty sequence
and `n ≥ 20` yields the entire list unmodified. -/
theorem getTopPypiPackages_nonneg (n : ℤ) (h : 0 ≤ n) :
    getTopPypiPackages n = popularPackages.take n.toNat ∧
      (getTopPypiPackages n).length = min n.toNat popularPackages.length ∧
      ((0 : ℤ) = n → getTopPypiPackages n = []) ∧
      (20 ≤ n → getTopPypiPackages n = popularPackages) := by
  have htake : getTopPypiPackages n = popularPackages.take n.toNat := by
    unfold getTopPypiPackages pySliceTo
    rw [if_pos h]
  refine ⟨htake, ?_, ?_, ?_⟩
  · rw [htake, List.length_take]
  · intro h0
    rw [htake, ← h0]
    rfl
  · intro h20
    rw [htake]
    apply List.take_of_length_le
    have hlen : popularPackages.length = 20 := by rfl
    rw [hlen]
    omega

theorem getTopPypiPackages_nonneg_witness :
    getTopPypiPackages 3 = popularPackages.take 3 ∧
      (getTopPypiPackages 3).length = min 3 popularPackages.length ∧
      ((0 : ℤ) = 3 → getTopPypiPackages 3 = []) ∧
      ((20 : ℤ) ≤ 3 → getTopPypiPackages 3 = popularPackages) :=
  getTopPypiPackages_nonneg 3 (by norm_num)

/-- C8: when the manifest is missing or unreadable and the configuration
is valid, the program does not crash: `analyze_dependencies` returns the
empty findings list, the read error is logged, stdout is exactly the
line `No potential typosquatting risks found.`, and the exit code is
`0`. -/
theorem mainRun_missing_manifest (threshold : ℚ) (topPackages : ℤ)
    (h1 : 0 ≤ threshold ∧ threshold ≤ 1) (h2 : 0 < topPackages) :
    analyzeDependencies none threshold topPackages = [] ∧
      mainRun none threshold topPackages =
        RunResult.mk 0 [OutLine.noRisks] true true := by
  refine ⟨rfl, ?_⟩
  unfold mainRun
  rw [if_neg (not_not_intro h1), if_neg (by omega)]
  rfl

theorem mainRun_missing_manifest_witness :
    analyzeDependencies none (4 / 5) 20 = [] ∧
      mainRun none (4 / 5) 20 = RunResult.mk 0 [OutLine.noRisks] true true :=
  mainRun_missing_manifest (4 / 5) 20 (by norm_num) (by norm_num)

/-- C9: when the threshold lies outside `[0, 1]` or the top-packages
count is not positive, the program exits with code `1` before any
analysis is performed and prints no stdout result line. -/
theorem mainRun_invalid_config (readResult : Option (List (List Char)))
    (threshold : ℚ) (topPackages : ℤ)
    (h : ¬(0 ≤ threshold ∧ threshold ≤ 1) ∨ topPackages ≤ 0) :
    mainRun readResult threshold topPackages = RunResult.mk 1 [] false false := by
  unfold mainRun
  rcases h with h | h
  · rw [if_pos h]
  · by_cases hθ : ¬(0 ≤ threshold ∧ threshold ≤ 1)
    · rw [if_pos hθ]
    · rw [if_neg hθ, if_pos h]

theorem mainRun_invalid_config_witness :
    mainRun none (3 / 2) 20 = RunResult.mk 1 [] false false :=
  mainRun_invalid_config none (3 / 2) 20 (Or.inl (by norm_num))

/-- C10: for a negative count `n`, Python slice semantics make
`get_top_pypi_packages(n)` return the first `20 + n` entries of the
20-entry reference list, which is nonempty whenever `-20 < n < 0`; a
caller that skips the positivity check therefore receives a truncated
non-empty list rather than an error or an empty result. -/
theorem getTopPypiPackages_negative (n : ℤ) (hlo : -20 < n) (hhi : n < 0) :
    getTopPypiPackages n = popularPackages.take (20 + n).toNat ∧
      (getTopPypiPackages n).length = (20 + n).toNat ∧
      getTopPypiPackages n ≠ [] := by
  have htake : getTopPypiPackages n = popularPackages.take (20 + n).toNat := by
    unfold getTopPypiPackages pySliceTo
    rw [if_neg (by omega)]
    rfl
  have hlen : (getTopPypiPackages n).length = (20 + n).toNat := by
    rw [htake, List.length_take]
    have h20 : popularPackages.length = 20 := by rfl
    rw [h20]
    omega
  refine ⟨htake, hlen, ?_⟩
  intro hnil
  rw [hnil] at hlen
  simp only [List.length_nil] at hlen
  omega

theorem getTopPypiPackages_negative_witness :
    getTopPypiPackages (-5) = popularPackages.take (20 + (-5) : ℤ).toNat ∧
      (getTopPypiPackages (-5)).length = ((20 : ℤ) + (-5)).toNat ∧
      getTopPypiPackages (-5) ≠ [] :=
  getTopPypiPackages_negative (-5) (by norm_num) (by norm_num)

end Typosquat
